import Mathlib

/-
Verification of the focus/lock and color-assignment core of
src/react/src/attention/AttentionHeads.tsx.

Numeric JavaScript values are modelled by JSNum: finite binary64 values
carried as exact rationals, plus the special values NaN, Infinity and
-Infinity that division by zero produces.  Division and multiplication
round their exact result to the nearest binary64 value (round to
nearest, ties to even, with overflow and subnormal handling), so finite
results are exactly the doubles JavaScript computes.  Math.round is per
the ECMAScript specification floor (x + 1/2) on the exact value of its
argument (halves round toward positive infinity).
-/

/-- Model of a JavaScript number: a finite rational or a special value. -/
inductive JSNum where
  | nan : JSNum
  | posInf : JSNum
  | negInf : JSNum
  | num : ℚ → JSNum
  deriving DecidableEq

/-- Number of binary digits of a natural number, with explicit fuel so
that the recursion is structural (fuel n suffices since a number has at
most n digits). -/
def bitsAux : ℕ → ℕ → ℕ
  | 0, _ => 0
  | fuel + 1, n => if n = 0 then 0 else bitsAux fuel (n / 2) + 1

/-- Number of binary digits: bits 0 = 0 and for n >= 1,
2 ^ (bits n - 1) <= n < 2 ^ bits n. -/
def bits (n : ℕ) : ℕ := bitsAux n n

/-- Round a rational to the nearest integer, ties to even: the rounding
used on significands by IEEE-754 round-to-nearest-even. -/
def roundTiesEven (q : ℚ) : ℤ :=
  if q - Rat.floor q < 1 / 2 then Rat.floor q
  else if 1 / 2 < q - Rat.floor q then Rat.floor q + 1
  else if Rat.floor q % 2 = 0 then Rat.floor q else Rat.floor q + 1

/-- Binary exponent of a positive rational: the unique e with
2 ^ e <= q < 2 ^ (e + 1), computed from the digit counts of numerator
and denominator. -/
def ratExpQ (q : ℚ) : ℤ :=
  if q < 2 ^ ((bits q.num.toNat : ℤ) - (bits q.den : ℤ))
  then (bits q.num.toNat : ℤ) - (bits q.den : ℤ) - 1
  else (bits q.num.toNat : ℤ) - (bits q.den : ℤ)

/-- Round a positive rational to the nearest IEEE-754 binary64 value
(normal range): scale into [2^52, 2^53), round the significand to
nearest-even, scale back. -/
def dbl (q : ℚ) : ℚ :=
  (roundTiesEven (q * 2 ^ (52 - ratExpQ q)) : ℚ) * 2 ^ (ratExpQ q - 52)

/-- Round the positive rational a / b to a binary64 value: the normal
range uses dbl (overflowing to Infinity past the largest finite double,
per the IEEE round-to-nearest overflow rule), exponents below -1022
round with the fixed subnormal scale 2^-1074. -/
def roundPosToDouble (a b : ℤ) : JSNum :=
  if -1022 ≤ ratExpQ ((a : ℚ) / (b : ℚ)) then
    if (2 : ℚ) ^ (1024 : ℤ) ≤ dbl ((a : ℚ) / (b : ℚ)) then JSNum.posInf
    else JSNum.num (dbl ((a : ℚ) / (b : ℚ)))
  else
    JSNum.num ((roundTiesEven ((a : ℚ) / (b : ℚ) * 2 ^ (1074 : ℤ)) : ℚ) *
      2 ^ (-(1074 : ℤ)))

/-- Round the rational a / b (b positive) to the nearest binary64 value;
zero is exact and negative values round symmetrically (round to
nearest-even is sign-symmetric). -/
def roundRatToDouble (a b : ℤ) : JSNum :=
  if a = 0 then JSNum.num 0
  else if 0 < a then roundPosToDouble a b
  else
    match roundPosToDouble (-a) b with
    | JSNum.posInf => JSNum.negInf
    | JSNum.num v => JSNum.num (-v)
    | x => x

/-- JavaScript division of two integers (IEEE-754 binary64 semantics):
division by zero yields NaN (0/0), Infinity (positive/0) or -Infinity
(negative/0); otherwise the exact quotient is rounded to the nearest
double (round-to-nearest, ties to even). -/
def jsDivInt (a b : ℤ) : JSNum :=
  if b = 0 then
    if a = 0 then JSNum.nan
    else if 0 < a then JSNum.posInf
    else JSNum.negInf
  else if 0 < b then roundRatToDouble a b
  else roundRatToDouble (-a) (-b)

/-- JavaScript multiplication of a number by the constant 360 (IEEE-754
binary64 semantics): the exact product q * 360 (written as the fraction
(q.num * 360) / q.den) is rounded to the nearest double; special values
are preserved (Infinity times 360 is Infinity, NaN times 360 is NaN). -/
def jsMul360 : JSNum → JSNum
  | JSNum.nan => JSNum.nan
  | JSNum.posInf => JSNum.posInf
  | JSNum.negInf => JSNum.negInf
  | JSNum.num q => roundRatToDouble (q.num * 360) (q.den : ℤ)

/-- Math.round: per the ECMAScript specification, the integer nearest to
the exact value of the argument, halves toward positive infinity, i.e.
floor (x + 1/2) on the exact (rational) value of the double; identity on
NaN and the infinities. -/
def jsRound : JSNum → JSNum
  | JSNum.num q => JSNum.num ((Rat.floor (q + 1/2) : ℤ) : ℚ)
  | x => x

/-- String conversion of a JavaScript number, as template interpolation
performs it; only integral finite values and special values are reached
by the code under verification. -/
def jsNumToString : JSNum → String
  | JSNum.nan => "NaN"
  | JSNum.posInf => "Infinity"
  | JSNum.negInf => "-Infinity"
  | JSNum.num q => if q.den = 1 then toString q.num else toString q

/-- Hue computed by attentionHeadColor:
Math.round ((idx / numberOfHeads) * 360), with the division and the
multiplication performed in binary64. -/
def attentionHue (idx numberOfHeads : ℤ) : JSNum :=
  jsRound (jsMul360 (jsDivInt idx numberOfHeads))

/-- Embedding of attentionHeadColor from AttentionHeads.tsx: the
template string hsla with the computed hue, fixed saturation 70 percent,
fixed lightness 50 percent, and the caller-supplied alpha (note the two
spaces before the alpha, exactly as in the source template). -/
def attentionHeadColor (idx numberOfHeads : ℤ) (alpha : String := "100%") : String :=
  "hsla(" ++ jsNumToString (attentionHue idx numberOfHeads) ++ ", 70%, 50%,  " ++ alpha ++ ")"

/-- The integer hue produced for index i of n heads (1 <= i < n,
n representable): Math.round applied to the double-rounded product
fl(fl(i / n) * 360). -/
def hueInt (i n : ℤ) : ℤ :=
  ⌊dbl (dbl ((i : ℚ) / (n : ℚ)) * 360) + 1 / 2⌋

/-- Rat.floor agrees with the floor of the FloorRing instance. -/
theorem ratFloor_eq_floor (q : ℚ) : Rat.floor q = ⌊q⌋ := by
  rw [Rat.floor_def, Rat.floor_def']

/-- Floor of a quotient of integers with positive denominator is integer
floor division. -/
theorem floorIntDiv (a b : ℤ) (hb : 0 < b) : ⌊(a : ℚ) / (b : ℚ)⌋ = a / b := by
  have h2b : ((b.toNat : ℕ) : ℤ) = b := Int.toNat_of_nonneg hb.le
  have hq : ((b.toNat : ℕ) : ℚ) = ((b : ℤ) : ℚ) := by exact_mod_cast h2b
  have h1 : (a : ℚ) / (b : ℚ) = (a : ℚ) / ((b.toNat : ℕ) : ℚ) := by rw [hq]
  rw [h1, Rat.floor_intCast_div_natCast, h2b]

/-- Floor form of the exact-rational hue: floor ((idx / n) * 360 + 1/2)
written as integer floor division (720 * idx + n) / (2 * n). -/
theorem hue_floor_eq (a b : ℤ) (hb : 0 < b) :
    ⌊(a : ℚ) / (b : ℚ) * 360 + 1 / 2⌋ = (720 * a + b) / (2 * b) := by
  have hbz : b ≠ 0 := hb.ne'
  have hbq : (b : ℚ) ≠ 0 := Int.cast_ne_zero.mpr hbz
  have h1 : (a : ℚ) / (b : ℚ) * 360 + 1 / 2 =
      ((720 * a + b : ℤ) : ℚ) / ((2 * b : ℤ) : ℚ) := by
    push_cast
    field_simp
    ring
  rw [h1, floorIntDiv _ _ (by omega)]

/-- String conversion of an integral JavaScript number is the integer
string. -/
theorem jsNumToString_intCast (n : ℤ) :
    jsNumToString (JSNum.num ((n : ℤ) : ℚ)) = toString n := by
  simp [jsNumToString, Rat.den_intCast, Rat.num_intCast]

/-- bitsAux of zero is zero for every fuel. -/
theorem bitsAux_zero (fuel : ℕ) : bitsAux fuel 0 = 0 := by
  cases fuel <;> rfl

/-- Digit-count bounds, by induction on the fuel. -/
theorem bitsAux_spec : ∀ fuel n : ℕ, n ≤ fuel → 1 ≤ n →
    2 ^ (bitsAux fuel n - 1) ≤ n ∧ n < 2 ^ bitsAux fuel n := by
  intro fuel
  induction fuel with
  | zero => intro n hn h1; omega
  | succ fuel ih =>
    intro n hn h1
    have hne : ¬ n = 0 := by omega
    simp only [bitsAux, if_neg hne]
    by_cases h2 : n / 2 = 0
    · have hone : n = 1 := by omega
      subst hone
      rw [h2, bitsAux_zero]
      norm_num
    · have hle : n / 2 ≤ fuel := by omega
      have h1x : 1 ≤ n / 2 := by omega
      obtain ⟨ih1, ih2⟩ := ih (n / 2) hle h1x
      have hb1 : 1 ≤ bitsAux fuel (n / 2) := by
        by_contra hcon
        have hz : bitsAux fuel (n / 2) = 0 := by omega
        rw [hz] at ih2
        simp at ih2
        omega
      constructor
      · have p1 : 2 ^ (bitsAux fuel (n / 2) + 1 - 1) =
            2 * 2 ^ (bitsAux fuel (n / 2) - 1) := by
          rw [Nat.add_sub_cancel]
          conv_lhs => rw [show bitsAux fuel (n / 2) = (bitsAux fuel (n / 2) - 1) + 1 by omega]
          rw [pow_succ]
          ring
        rw [p1]
        omega
      · have p2 : 2 ^ (bitsAux fuel (n / 2) + 1) = 2 * 2 ^ bitsAux fuel (n / 2) := by
          rw [pow_succ]
          ring
        rw [p2]
        omega

/-- Digit-count bounds for bits. -/
theorem bits_spec (n : ℕ) (h1 : 1 ≤ n) : 2 ^ (bits n - 1) ≤ n ∧ n < 2 ^ bits n :=
  bitsAux_spec n n le_rfl h1

/-- Round-to-nearest is within one half of the value. -/
theorem rte_bounds (q : ℚ) : |(roundTiesEven q : ℚ) - q| ≤ 1 / 2 := by
  have hle : ((Rat.floor q : ℤ) : ℚ) ≤ q := by
    rw [ratFloor_eq_floor]; exact Int.floor_le q
  have hlt : q < ((Rat.floor q : ℤ) : ℚ) + 1 := by
    rw [ratFloor_eq_floor]; exact Int.lt_floor_add_one q
  rw [roundTiesEven]
  split_ifs with h1 h2 h3 <;> (rw [abs_le]; push_cast; constructor <;> linarith)

/-- Lower half-bound of round-to-nearest. -/
theorem rte_lb (q : ℚ) : q - 1 / 2 ≤ (roundTiesEven q : ℚ) := by
  have h := abs_le.mp (rte_bounds q)
  linarith [h.1]

/-- Upper half-bound of round-to-nearest. -/
theorem rte_ub (q : ℚ) : (roundTiesEven q : ℚ) ≤ q + 1 / 2 := by
  have h := abs_le.mp (rte_bounds q)
  linarith [h.2]

/-- Round-to-nearest ties-even is monotone. -/
theorem rte_mono {q r : ℚ} (h : q ≤ r) : roundTiesEven q ≤ roundTiesEven r := by
  by_contra hcon
  push_neg at hcon
  have h1 : roundTiesEven r + 1 ≤ roundTiesEven q := hcon
  have h4 : ((roundTiesEven r : ℤ) : ℚ) + 1 ≤ ((roundTiesEven q : ℤ) : ℚ) := by
    exact_mod_cast h1
  have h2 := rte_ub q
  have h3 := rte_lb r
  have hqr : q = r := le_antisymm h (by linarith)
  rw [hqr] at hcon
  exact lt_irrefl _ hcon

/-- Evaluation of round-to-nearest when the value is in the lower half
of an integer gap. -/
theorem rte_eq_of_lt_half (q : ℚ) (t : ℤ) (h1 : (t : ℚ) ≤ q)
    (h2 : q < (t : ℚ) + 1 / 2) : roundTiesEven q = t := by
  have hf : Rat.floor q = t := by
    rw [ratFloor_eq_floor]
    exact Int.floor_eq_iff.mpr ⟨h1, by linarith⟩
  rw [roundTiesEven, hf, if_pos (by linarith)]

/-- Evaluation of round-to-nearest when the value is in the upper half
of an integer gap. -/
theorem rte_eq_of_gt_half (q : ℚ) (t : ℤ) (h1 : (t : ℚ) + 1 / 2 < q)
    (h2 : q < (t : ℚ) + 1) : roundTiesEven q = t + 1 := by
  have hf : Rat.floor q = t := by
    rw [ratFloor_eq_floor]
    exact Int.floor_eq_iff.mpr ⟨by linarith, by linarith⟩
  rw [roundTiesEven, hf, if_neg (by linarith), if_pos (by linarith)]

/-- The binary exponent brackets a positive rational:
2 ^ ratExpQ q <= q < 2 ^ (ratExpQ q + 1). -/
theorem ratExpQ_spec (q : ℚ) (hq : 0 < q) :
    (2 : ℚ) ^ ratExpQ q ≤ q ∧ q < (2 : ℚ) ^ (ratExpQ q + 1) := by
  have hnum : 0 < q.num := Rat.num_pos.mpr hq
  have hn1 : 1 ≤ q.num.toNat := by omega
  have hd1 : 1 ≤ q.den := Nat.pos_of_ne_zero q.den_nz
  obtain ⟨hn_lo, hn_hi⟩ := bits_spec q.num.toNat hn1
  obtain ⟨hd_lo, hd_hi⟩ := bits_spec q.den hd1
  have hbn1 : 1 ≤ bits q.num.toNat := by
    by_contra hcon
    have hz : bits q.num.toNat = 0 := by omega
    rw [hz] at hn_hi
    omega
  have hbd1 : 1 ≤ bits q.den := by
    by_contra hcon
    have hz : bits q.den = 0 := by omega
    rw [hz] at hd_hi
    omega
  have hqval : q = (q.num.toNat : ℚ) / (q.den : ℚ) := by
    have hcast : ((q.num.toNat : ℕ) : ℚ) = ((q.num : ℤ) : ℚ) := by
      exact_mod_cast congrArg (fun z : ℤ => (z : ℚ)) (Int.toNat_of_nonneg hnum.le)
    rw [hcast]
    exact (Rat.num_div_den q).symm
  have hdq : (0 : ℚ) < (q.den : ℚ) := by exact_mod_cast hd1
  have hnq_lo : (2 : ℚ) ^ ((bits q.num.toNat : ℤ) - 1) ≤ (q.num.toNat : ℚ) := by
    calc (2 : ℚ) ^ ((bits q.num.toNat : ℤ) - 1)
        = ((2 ^ (bits q.num.toNat - 1) : ℕ) : ℚ) := by
          rw [Nat.cast_pow, Nat.cast_ofNat, ← zpow_natCast]
          congr 1
          omega
      _ ≤ (q.num.toNat : ℚ) := by exact_mod_cast hn_lo
  have hnq_hi : (q.num.toNat : ℚ) < (2 : ℚ) ^ ((bits q.num.toNat : ℤ)) := by
    calc (q.num.toNat : ℚ) < ((2 ^ bits q.num.toNat : ℕ) : ℚ) := by exact_mod_cast hn_hi
      _ = (2 : ℚ) ^ ((bits q.num.toNat : ℤ)) := by
          rw [Nat.cast_pow, Nat.cast_ofNat, ← zpow_natCast]
  have hdq_lo : (2 : ℚ) ^ ((bits q.den : ℤ) - 1) ≤ (q.den : ℚ) := by
    calc (2 : ℚ) ^ ((bits q.den : ℤ) - 1)
        = ((2 ^ (bits q.den - 1) : ℕ) : ℚ) := by
          rw [Nat.cast_pow, Nat.cast_ofNat, ← zpow_natCast]
          congr 1
          omega
      _ ≤ (q.den : ℚ) := by exact_mod_cast hd_lo
  have hdq_hi : (q.den : ℚ) < (2 : ℚ) ^ ((bits q.den : ℤ)) := by
    calc (q.den : ℚ) < ((2 ^ bits q.den : ℕ) : ℚ) := by exact_mod_cast hd_hi
      _ = (2 : ℚ) ^ ((bits q.den : ℤ)) := by
          rw [Nat.cast_pow, Nat.cast_ofNat, ← zpow_natCast]
  have hpow_pos : ∀ k : ℤ, (0 : ℚ) < 2 ^ k := fun k => zpow_pos (by norm_num) k
  have key_lo : (2 : ℚ) ^ ((bits q.num.toNat : ℤ) - (bits q.den : ℤ) - 1) < q := by
    conv_rhs => rw [hqval]
    rw [lt_div_iff hdq]
    calc (2 : ℚ) ^ ((bits q.num.toNat : ℤ) - (bits q.den : ℤ) - 1) * (q.den : ℚ)
        < (2 : ℚ) ^ ((bits q.num.toNat : ℤ) - (bits q.den : ℤ) - 1) *
            (2 : ℚ) ^ ((bits q.den : ℤ)) := by
          exact mul_lt_mul_of_pos_left hdq_hi (hpow_pos _)
      _ = (2 : ℚ) ^ ((bits q.num.toNat : ℤ) - 1) := by
          rw [← zpow_add₀ (by norm_num : (2 : ℚ) ≠ 0)]
          congr 1
          ring
      _ ≤ (q.num.toNat : ℚ) := hnq_lo
  have key_hi : q < (2 : ℚ) ^ ((bits q.num.toNat : ℤ) - (bits q.den : ℤ) + 1) := by
    conv_lhs => rw [hqval]
    rw [div_lt_iff hdq]
    calc (q.num.toNat : ℚ) < (2 : ℚ) ^ ((bits q.num.toNat : ℤ)) := hnq_hi
      _ = (2 : ℚ) ^ ((bits q.num.toNat : ℤ) - (bits q.den : ℤ) + 1) *
            (2 : ℚ) ^ ((bits q.den : ℤ) - 1) := by
          rw [← zpow_add₀ (by norm_num : (2 : ℚ) ≠ 0)]
          congr 1
          ring
      _ ≤ (2 : ℚ) ^ ((bits q.num.toNat : ℤ) - (bits q.den : ℤ) + 1) * (q.den : ℚ) := by
          exact mul_le_mul_of_nonneg_left hdq_lo (le_of_lt (hpow_pos _))
  rw [ratExpQ]
  split_ifs with hbr
  · refine ⟨key_lo.le, ?_⟩
    rw [show (bits q.num.toNat : ℤ) - (bits q.den : ℤ) - 1 + 1 =
      (bits q.num.toNat : ℤ) - (bits q.den : ℤ) by ring]
    exact hbr
  · exact ⟨not_lt.mp hbr, key_hi⟩

/-- The binary exponent is the unique integer bracketing the value. -/
theorem ratExpQ_unique (q : ℚ) (e : ℤ) (hq : 0 < q)
    (h1 : (2 : ℚ) ^ e ≤ q) (h2 : q < (2 : ℚ) ^ (e + 1)) : ratExpQ q = e := by
  obtain ⟨g1, g2⟩ := ratExpQ_spec q hq
  by_contra hne
  rcases lt_or_gt_of_ne hne with hlt | hgt
  · have hz : (2 : ℚ) ^ (ratExpQ q + 1) ≤ (2 : ℚ) ^ e :=
      zpow_le_zpow_right₀ (by norm_num) (by omega)
    linarith
  · have hz : (2 : ℚ) ^ (e + 1) ≤ (2 : ℚ) ^ ratExpQ q :=
      zpow_le_zpow_right₀ (by norm_num) (by omega)
    linarith

/-- Correctness of one binary64 rounding step on a positive value:
result positive, relative error at most 2^-52, and value bracketed by
the powers at the exponent. -/
theorem dbl_facts (q : ℚ) (hq : 0 < q) :
    0 < dbl q ∧
    |dbl q - q| ≤ q * (2 : ℚ) ^ (-(52 : ℤ)) ∧
    (2 : ℚ) ^ ratExpQ q ≤ dbl q ∧
    dbl q ≤ (2 : ℚ) ^ (ratExpQ q + 1) := by
  obtain ⟨hlo, hhi⟩ := ratExpQ_spec q hq
  have hpow_pos : ∀ k : ℤ, (0 : ℚ) < 2 ^ k := fun k => zpow_pos (by norm_num) k
  have htwo : (2 : ℚ) ≠ 0 := by norm_num
  have hx_lo : (2 : ℚ) ^ (52 : ℤ) ≤ q * 2 ^ (52 - ratExpQ q) := by
    calc (2 : ℚ) ^ (52 : ℤ) = 2 ^ ratExpQ q * 2 ^ (52 - ratExpQ q) := by
          rw [← zpow_add₀ htwo]
          congr 1
          ring
      _ ≤ q * 2 ^ (52 - ratExpQ q) :=
          mul_le_mul_of_nonneg_right hlo (le_of_lt (hpow_pos _))
  have hx_hi : q * 2 ^ (52 - ratExpQ q) < (2 : ℚ) ^ (53 : ℤ) := by
    calc q * 2 ^ (52 - ratExpQ q) < 2 ^ (ratExpQ q + 1) * 2 ^ (52 - ratExpQ q) :=
          mul_lt_mul_of_pos_right hhi (hpow_pos _)
      _ = (2 : ℚ) ^ (53 : ℤ) := by
          rw [← zpow_add₀ htwo]
          congr 1
          ring
  have hm_lb := rte_lb (q * 2 ^ (52 - ratExpQ q))
  have hm_ub := rte_ub (q * 2 ^ (52 - ratExpQ q))
  have h252 : (2 : ℚ) ^ (52 : ℤ) = 4503599627370496 := by norm_num
  have h253 : (2 : ℚ) ^ (53 : ℤ) = 9007199254740992 := by norm_num
  have hm_pos : (0 : ℚ) < (roundTiesEven (q * 2 ^ (52 - ratExpQ q)) : ℚ) := by
    rw [h252] at hx_lo
    linarith
  have hm_lo52 : (2 : ℚ) ^ (52 : ℤ) ≤ (roundTiesEven (q * 2 ^ (52 - ratExpQ q)) : ℚ) := by
    have hint : (4503599627370495 : ℤ) < roundTiesEven (q * 2 ^ (52 - ratExpQ q)) := by
      have : ((4503599627370495 : ℤ) : ℚ) <
          (roundTiesEven (q * 2 ^ (52 - ratExpQ q)) : ℚ) := by
        rw [h252] at hx_lo
        push_cast
        linarith
      exact_mod_cast this
    have : (4503599627370496 : ℤ) ≤ roundTiesEven (q * 2 ^ (52 - ratExpQ q)) := by omega
    rw [h252]
    exact_mod_cast this
  have hm_hi53 : (roundTiesEven (q * 2 ^ (52 - ratExpQ q)) : ℚ) ≤ (2 : ℚ) ^ (53 : ℤ) := by
    have hint : roundTiesEven (q * 2 ^ (52 - ratExpQ q)) < (9007199254740993 : ℤ) := by
      have : (roundTiesEven (q * 2 ^ (52 - ratExpQ q)) : ℚ) <
          ((9007199254740993 : ℤ) : ℚ) := by
        rw [h253] at hx_hi
        push_cast
        linarith
      exact_mod_cast this
    have : roundTiesEven (q * 2 ^ (52 - ratExpQ q)) ≤ (9007199254740992 : ℤ) := by omega
    rw [h253]
    exact_mod_cast this
  have hd : dbl q = (roundTiesEven (q * 2 ^ (52 - ratExpQ q)) : ℚ) *
      2 ^ (ratExpQ q - 52) := rfl
  have hq_id : q * 2 ^ (52 - ratExpQ q) * 2 ^ (ratExpQ q - 52) = q := by
    rw [mul_assoc, ← zpow_add₀ htwo,
      show 52 - ratExpQ q + (ratExpQ q - 52) = 0 by ring, zpow_zero, mul_one]
  refine ⟨?_, ?_, ?_, ?_⟩
  · rw [hd]
    exact mul_pos hm_pos (hpow_pos _)
  · have key : dbl q - q = ((roundTiesEven (q * 2 ^ (52 - ratExpQ q)) : ℚ) -
        q * 2 ^ (52 - ratExpQ q)) * 2 ^ (ratExpQ q - 52) := by
      calc dbl q - q
          = (roundTiesEven (q * 2 ^ (52 - ratExpQ q)) : ℚ) * 2 ^ (ratExpQ q - 52) - q := by
            rw [hd]
        _ = (roundTiesEven (q * 2 ^ (52 - ratExpQ q)) : ℚ) * 2 ^ (ratExpQ q - 52) -
              q * 2 ^ (52 - ratExpQ q) * 2 ^ (ratExpQ q - 52) := by rw [hq_id]
        _ = ((roundTiesEven (q * 2 ^ (52 - ratExpQ q)) : ℚ) -
              q * 2 ^ (52 - ratExpQ q)) * 2 ^ (ratExpQ q - 52) := by ring
    rw [key, abs_mul, abs_of_pos (hpow_pos (ratExpQ q - 52))]
    have h1 := rte_bounds (q * 2 ^ (52 - ratExpQ q))
    calc |(roundTiesEven (q * 2 ^ (52 - ratExpQ q)) : ℚ) - q * 2 ^ (52 - ratExpQ q)| *
          2 ^ (ratExpQ q - 52)
        ≤ (1 / 2) * 2 ^ (ratExpQ q - 52) :=
          mul_le_mul_of_nonneg_right h1 (le_of_lt (hpow_pos _))
      _ = 2 ^ ratExpQ q * 2 ^ (-(53 : ℤ)) := by
          rw [show (1 / 2 : ℚ) = 2 ^ (-(1 : ℤ)) by norm_num, ← zpow_add₀ htwo,
            ← zpow_add₀ htwo]
          congr 1
          ring
      _ ≤ q * 2 ^ (-(53 : ℤ)) := mul_le_mul_of_nonneg_right hlo (le_of_lt (hpow_pos _))
      _ ≤ q * 2 ^ (-(52 : ℤ)) := by
          apply mul_le_mul_of_nonneg_left _ hq.le
          exact zpow_le_zpow_right₀ (by norm_num) (by omega)
  · rw [hd]
    calc (2 : ℚ) ^ ratExpQ q = 2 ^ (52 : ℤ) * 2 ^ (ratExpQ q - 52) := by
          rw [← zpow_add₀ htwo]
          congr 1
          ring
      _ ≤ (roundTiesEven (q * 2 ^ (52 - ratExpQ q)) : ℚ) * 2 ^ (ratExpQ q - 52) :=
          mul_le_mul_of_nonneg_right hm_lo52 (le_of_lt (hpow_pos _))
  · rw [hd]
    calc (roundTiesEven (q * 2 ^ (52 - ratExpQ q)) : ℚ) * 2 ^ (ratExpQ q - 52)
        ≤ (2 : ℚ) ^ (53 : ℤ) * 2 ^ (ratExpQ q - 52) :=
          mul_le_mul_of_nonneg_right hm_hi53 (le_of_lt (hpow_pos _))
      _ = (2 : ℚ) ^ (ratExpQ q + 1) := by
          rw [← zpow_add₀ htwo]
          congr 1
          ring

/-- Binary64 rounding is monotone on positive values. -/
theorem dbl_mono {q r : ℚ} (hq : 0 < q) (hqr : q ≤ r) : dbl q ≤ dbl r := by
  have hr : 0 < r := lt_of_lt_of_le hq hqr
  obtain ⟨hq_lo, hq_hi⟩ := ratExpQ_spec q hq
  obtain ⟨hr_lo, hr_hi⟩ := ratExpQ_spec r hr
  have hpow_pos : ∀ k : ℤ, (0 : ℚ) < 2 ^ k := fun k => zpow_pos (by norm_num) k
  have hee : ratExpQ q ≤ ratExpQ r := by
    by_contra hcon
    push_neg at hcon
    have hz : (2 : ℚ) ^ (ratExpQ r + 1) ≤ (2 : ℚ) ^ ratExpQ q :=
      zpow_le_zpow_right₀ (by norm_num) (by omega)
    linarith
  rcases eq_or_lt_of_le hee with heq | hlt
  · have hd1 : dbl q = (roundTiesEven (q * 2 ^ (52 - ratExpQ q)) : ℚ) *
        2 ^ (ratExpQ q - 52) := rfl
    have hd2 : dbl r = (roundTiesEven (r * 2 ^ (52 - ratExpQ q)) : ℚ) *
        2 ^ (ratExpQ q - 52) := by
      unfold dbl
      rw [← heq]
    rw [hd1, hd2]
    apply mul_le_mul_of_nonneg_right _ (le_of_lt (hpow_pos _))
    have hmm : roundTiesEven (q * 2 ^ (52 - ratExpQ q)) ≤
        roundTiesEven (r * 2 ^ (52 - ratExpQ q)) :=
      rte_mono (mul_le_mul_of_nonneg_right hqr (le_of_lt (hpow_pos _)))
    exact_mod_cast hmm
  · have h1 : dbl q ≤ (2 : ℚ) ^ (ratExpQ q + 1) := (dbl_facts q hq).2.2.2
    have h2 : (2 : ℚ) ^ ratExpQ r ≤ dbl r := (dbl_facts r hr).2.2.1
    have h3 : (2 : ℚ) ^ (ratExpQ q + 1) ≤ (2 : ℚ) ^ ratExpQ r :=
      zpow_le_zpow_right₀ (by norm_num) (by omega)
    linarith

/-- Shape of the positive rounding on normal-range values. -/
theorem roundRatToDouble_pos (a b : ℤ) (ha : 0 < a) (hb : 0 < b)
    (hlo : -1022 ≤ ratExpQ ((a : ℚ) / (b : ℚ)))
    (hhi : ratExpQ ((a : ℚ) / (b : ℚ)) ≤ 1022) :
    roundRatToDouble a b = JSNum.num (dbl ((a : ℚ) / (b : ℚ))) := by
  have hq : (0 : ℚ) < (a : ℚ) / (b : ℚ) :=
    div_pos (by exact_mod_cast ha) (by exact_mod_cast hb)
  have hnover : ¬ ((2 : ℚ) ^ (1024 : ℤ) ≤ dbl ((a : ℚ) / (b : ℚ))) := by
    have h1 : dbl ((a : ℚ) / (b : ℚ)) ≤ (2 : ℚ) ^ (ratExpQ ((a : ℚ) / (b : ℚ)) + 1) :=
      (dbl_facts _ hq).2.2.2
    have h2 : (2 : ℚ) ^ (ratExpQ ((a : ℚ) / (b : ℚ)) + 1) ≤ (2 : ℚ) ^ (1023 : ℤ) :=
      zpow_le_zpow_right₀ (by norm_num) (by omega)
    have h3 : (2 : ℚ) ^ (1023 : ℤ) < (2 : ℚ) ^ (1024 : ℤ) :=
      zpow_lt_zpow_right₀ (by norm_num) (by omega)
    exact not_le.mpr (by linarith)
  rw [roundRatToDouble, if_neg (by omega : ¬ a = 0), if_pos ha, roundPosToDouble,
    if_pos hlo, if_neg hnover]

/-- Shape of jsDivInt on positive normal-range quotients. -/
theorem jsDivInt_pos (a b : ℤ) (ha : 0 < a) (hb : 0 < b)
    (hlo : -1022 ≤ ratExpQ ((a : ℚ) / (b : ℚ)))
    (hhi : ratExpQ ((a : ℚ) / (b : ℚ)) ≤ 1022) :
    jsDivInt a b = JSNum.num (dbl ((a : ℚ) / (b : ℚ))) := by
  rw [jsDivInt, if_neg hb.ne', if_pos hb, roundRatToDouble_pos a b ha hb hlo hhi]

/-- The exact product of a rational with 360 written as the fraction
used by jsMul360. -/
theorem mul360_val (x : ℚ) : ((x.num * 360 : ℤ) : ℚ) / ((x.den : ℤ) : ℚ) = x * 360 := by
  have hden : ((x.den : ℕ) : ℚ) ≠ 0 := by
    exact_mod_cast x.den_nz
  conv_rhs => rw [← Rat.num_div_den x]
  push_cast
  field_simp

/-- Shape of jsMul360 on positive normal-range products. -/
theorem jsMul360_pos (x : ℚ) (hx : 0 < x)
    (hlo : -1022 ≤ ratExpQ (x * 360)) (hhi : ratExpQ (x * 360) ≤ 1022) :
    jsMul360 (JSNum.num x) = JSNum.num (dbl (x * 360)) := by
  have hnum_pos : 0 < x.num * 360 := by
    have h1 : 0 < x.num := Rat.num_pos.mpr hx
    omega
  have hden_pos : (0 : ℤ) < (x.den : ℤ) := by
    have := x.den_nz
    omega
  have hshape := roundRatToDouble_pos (x.num * 360) (x.den : ℤ) hnum_pos hden_pos
    (by rw [mul360_val]; exact hlo) (by rw [mul360_val]; exact hhi)
  simp only [jsMul360]
  rw [hshape, mul360_val]

/-- Shape of jsRound on finite values. -/
theorem jsRound_num (x : ℚ) : jsRound (JSNum.num x) = JSNum.num ((⌊x + 1 / 2⌋ : ℤ) : ℚ) := by
  simp only [jsRound, ratFloor_eq_floor]

/-- Evaluation helper for dbl at a concrete value. -/
theorem dbl_eval (q : ℚ) (e m : ℤ) (he : ratExpQ q = e)
    (hm : roundTiesEven (q * 2 ^ (52 - e)) = m) : dbl q = (m : ℚ) * 2 ^ (e - 52) := by
  unfold dbl
  rw [he, hm]

/-- Hue of head 0 is 0 whenever the head count is positive. -/
theorem attentionHue_zero (b : ℤ) (hb : 0 < b) : attentionHue 0 b = JSNum.num 0 := by
  have h1 : jsDivInt 0 b = JSNum.num 0 := by
    rw [jsDivInt, if_neg hb.ne', if_pos hb, roundRatToDouble, if_pos rfl]
  have h2 : jsMul360 (JSNum.num 0) = JSNum.num 0 := by
    simp only [jsMul360]
    rw [show ((0 : ℚ).num * 360 : ℤ) = 0 from rfl, roundRatToDouble, if_pos rfl]
  rw [attentionHue, h1, h2, jsRound_num]
  have h3 : ⌊(0 : ℚ) + 1 / 2⌋ = 0 := by
    rw [zero_add]
    rw [Int.floor_eq_iff]
    constructor <;> norm_num
  rw [h3]
  norm_num

/-- The full hue pipeline on an in-range index: attentionHue computes
the integer hueInt (Math.round of the twice-rounded product), and that
hue is within 1/2 + 2^-40 of the exact (i / n) * 360. -/
theorem attentionHue_chain (i n : ℤ) (h1 : 1 ≤ i) (hin : i < n) (hn : n ≤ 2 ^ 53) :
    attentionHue i n = JSNum.num ((hueInt i n : ℤ) : ℚ) ∧
    |((hueInt i n : ℤ) : ℚ) - (i : ℚ) / (n : ℚ) * 360| ≤ 1 / 2 + (2 : ℚ) ^ (-(40 : ℤ)) := by
  have hnpos : (0 : ℤ) < n := by omega
  have hiq : (0 : ℚ) < (i : ℚ) := by exact_mod_cast (by omega : (0 : ℤ) < i)
  have hnq : (0 : ℚ) < (n : ℚ) := by exact_mod_cast hnpos
  have hq0_pos : (0 : ℚ) < (i : ℚ) / (n : ℚ) := div_pos hiq hnq
  have hq0_lt1 : (i : ℚ) / (n : ℚ) < 1 := by
    rw [div_lt_one hnq]
    exact_mod_cast hin
  have hn53 : (n : ℚ) ≤ (2 : ℚ) ^ (53 : ℤ) := by
    have hlit : ((2 : ℤ) ^ (53 : ℕ) : ℤ) = 9007199254740992 := by norm_num
    have h253 : (2 : ℚ) ^ (53 : ℤ) = 9007199254740992 := by norm_num
    rw [h253]
    exact_mod_cast (by omega : n ≤ 9007199254740992)
  have hq0_ge : (2 : ℚ) ^ (-(53 : ℤ)) ≤ (i : ℚ) / (n : ℚ) := by
    have hi1 : (1 : ℚ) ≤ (i : ℚ) := by exact_mod_cast h1
    have hstep1 : (2 : ℚ) ^ (-(53 : ℤ)) ≤ 1 / (n : ℚ) := by
      rw [zpow_neg, inv_eq_one_div]
      exact one_div_le_one_div_of_le hnq hn53
    have hstep2 : (1 : ℚ) / (n : ℚ) ≤ (i : ℚ) / (n : ℚ) := by gcongr
    linarith
  obtain ⟨he0_le, he0_lt⟩ := ratExpQ_spec _ hq0_pos
  have he0_lo : -(53 : ℤ) ≤ ratExpQ ((i : ℚ) / (n : ℚ)) := by
    by_contra hcon
    push_neg at hcon
    have hz : (2 : ℚ) ^ (ratExpQ ((i : ℚ) / (n : ℚ)) + 1) ≤ (2 : ℚ) ^ (-(53 : ℤ)) :=
      zpow_le_zpow_right₀ (by norm_num) (by omega)
    linarith
  have he0_hi : ratExpQ ((i : ℚ) / (n : ℚ)) ≤ -1 := by
    by_contra hcon
    push_neg at hcon
    have hz : (2 : ℚ) ^ (0 : ℤ) ≤ (2 : ℚ) ^ ratExpQ ((i : ℚ) / (n : ℚ)) :=
      zpow_le_zpow_right₀ (by norm_num) (by omega)
    rw [zpow_zero] at hz
    linarith
  have hdiv : jsDivInt i n = JSNum.num (dbl ((i : ℚ) / (n : ℚ))) :=
    jsDivInt_pos i n (by omega) hnpos (by omega) (by omega)
  obtain ⟨hx1_pos, hx1_err, hx1_lo, hx1_hi⟩ := dbl_facts _ hq0_pos
  have hx1_le1 : dbl ((i : ℚ) / (n : ℚ)) ≤ 1 := by
    have hz : (2 : ℚ) ^ (ratExpQ ((i : ℚ) / (n : ℚ)) + 1) ≤ (2 : ℚ) ^ (0 : ℤ) :=
      zpow_le_zpow_right₀ (by norm_num) (by omega)
    rw [zpow_zero] at hz
    linarith
  have hx1_ge : (2 : ℚ) ^ (-(53 : ℤ)) ≤ dbl ((i : ℚ) / (n : ℚ)) := by
    have hz : (2 : ℚ) ^ (-(53 : ℤ)) ≤ (2 : ℚ) ^ ratExpQ ((i : ℚ) / (n : ℚ)) :=
      zpow_le_zpow_right₀ (by norm_num) he0_lo
    linarith
  have hq1_pos : (0 : ℚ) < dbl ((i : ℚ) / (n : ℚ)) * 360 := by positivity
  have hq1_ge : (2 : ℚ) ^ (-(45 : ℤ)) ≤ dbl ((i : ℚ) / (n : ℚ)) * 360 := by
    have hr : (2 : ℚ) ^ (-(45 : ℤ)) = (2 : ℚ) ^ (-(53 : ℤ)) * 256 := by norm_num
    rw [hr]
    calc (2 : ℚ) ^ (-(53 : ℤ)) * 256 ≤ dbl ((i : ℚ) / (n : ℚ)) * 256 :=
          mul_le_mul_of_nonneg_right hx1_ge (by norm_num)
      _ ≤ dbl ((i : ℚ) / (n : ℚ)) * 360 :=
          mul_le_mul_of_nonneg_left (by norm_num) hx1_pos.le
  have hq1_le : dbl ((i : ℚ) / (n : ℚ)) * 360 ≤ 360 := by
    calc dbl ((i : ℚ) / (n : ℚ)) * 360 ≤ 1 * 360 :=
          mul_le_mul_of_nonneg_right hx1_le1 (by norm_num)
      _ = 360 := by ring
  obtain ⟨he1_le, he1_lt⟩ := ratExpQ_spec _ hq1_pos
  have he1_lo : -(45 : ℤ) ≤ ratExpQ (dbl ((i : ℚ) / (n : ℚ)) * 360) := by
    by_contra hcon
    push_neg at hcon
    have hz : (2 : ℚ) ^ (ratExpQ (dbl ((i : ℚ) / (n : ℚ)) * 360) + 1) ≤
        (2 : ℚ) ^ (-(45 : ℤ)) := zpow_le_zpow_right₀ (by norm_num) (by omega)
    linarith
  have he1_hi : ratExpQ (dbl ((i : ℚ) / (n : ℚ)) * 360) ≤ 8 := by
    by_contra hcon
    push_neg at hcon
    have hz : (2 : ℚ) ^ (9 : ℤ) ≤ (2 : ℚ) ^ ratExpQ (dbl ((i : ℚ) / (n : ℚ)) * 360) :=
      zpow_le_zpow_right₀ (by norm_num) (by omega)
    have h29 : (2 : ℚ) ^ (9 : ℤ) = 512 := by norm_num
    rw [h29] at hz
    linarith
  have hmul : jsMul360 (JSNum.num (dbl ((i : ℚ) / (n : ℚ)))) =
      JSNum.num (dbl (dbl ((i : ℚ) / (n : ℚ)) * 360)) :=
    jsMul360_pos _ hx1_pos (by omega) (by omega)
  obtain ⟨hx2_pos, hx2_err, hx2_lo, hx2_hi⟩ := dbl_facts _ hq1_pos
  have hchain : attentionHue i n =
      JSNum.num ((⌊dbl (dbl ((i : ℚ) / (n : ℚ)) * 360) + 1 / 2⌋ : ℤ) : ℚ) := by
    rw [attentionHue, hdiv, hmul, jsRound_num]
  constructor
  · exact hchain
  · have hf1 : ((hueInt i n : ℤ) : ℚ) ≤ dbl (dbl ((i : ℚ) / (n : ℚ)) * 360) + 1 / 2 :=
      Int.floor_le _
    have hf2 : dbl (dbl ((i : ℚ) / (n : ℚ)) * 360) + 1 / 2 - 1 < ((hueInt i n : ℤ) : ℚ) :=
      Int.sub_one_lt_floor _
    have hb1 : |dbl (dbl ((i : ℚ) / (n : ℚ)) * 360) - dbl ((i : ℚ) / (n : ℚ)) * 360| ≤
        (360 : ℚ) * 2 ^ (-(52 : ℤ)) := by
      calc |dbl (dbl ((i : ℚ) / (n : ℚ)) * 360) - dbl ((i : ℚ) / (n : ℚ)) * 360|
          ≤ dbl ((i : ℚ) / (n : ℚ)) * 360 * 2 ^ (-(52 : ℤ)) := hx2_err
        _ ≤ (360 : ℚ) * 2 ^ (-(52 : ℤ)) :=
            mul_le_mul_of_nonneg_right hq1_le (le_of_lt (zpow_pos (by norm_num) _))
    have hb2 : |dbl ((i : ℚ) / (n : ℚ)) * 360 - (i : ℚ) / (n : ℚ) * 360| ≤
        (360 : ℚ) * 2 ^ (-(52 : ℤ)) := by
      have hrw : dbl ((i : ℚ) / (n : ℚ)) * 360 - (i : ℚ) / (n : ℚ) * 360 =
          (dbl ((i : ℚ) / (n : ℚ)) - (i : ℚ) / (n : ℚ)) * 360 := by ring
      rw [hrw, abs_mul, abs_of_pos (by norm_num : (0 : ℚ) < 360)]
      calc |dbl ((i : ℚ) / (n : ℚ)) - (i : ℚ) / (n : ℚ)| * 360
          ≤ (i : ℚ) / (n : ℚ) * 2 ^ (-(52 : ℤ)) * 360 :=
            mul_le_mul_of_nonneg_right hx1_err (by norm_num)
        _ ≤ 1 * 2 ^ (-(52 : ℤ)) * 360 := by
            have hstep : (i : ℚ) / (n : ℚ) * 2 ^ (-(52 : ℤ)) ≤ 1 * 2 ^ (-(52 : ℤ)) :=
              mul_le_mul_of_nonneg_right hq0_lt1.le (le_of_lt (zpow_pos (by norm_num) _))
            exact mul_le_mul_of_nonneg_right hstep (by norm_num)
        _ = 360 * 2 ^ (-(52 : ℤ)) := by ring
    have he1 := abs_le.mp hb1
    have he2 := abs_le.mp hb2
    have hlit1 : (360 : ℚ) * 2 ^ (-(52 : ℤ)) = 360 / 4503599627370496 := by norm_num
    have hlit2 : (2 : ℚ) ^ (-(40 : ℤ)) = 1 / 1099511627776 := by norm_num
    rw [abs_le]
    rw [hlit1] at he1 he2
    rw [hlit2]
    constructor <;> linarith

/-- The hue is monotone in the index (evenly distributed in index
order): composition of monotone double roundings and a monotone
final rounding. -/
theorem hueInt_mono (n i j : ℤ) (h1 : 1 ≤ i) (hij : i ≤ j) (hj : j < n) :
    hueInt i n ≤ hueInt j n := by
  have hn : (0 : ℤ) < n := by omega
  have hnq : (0 : ℚ) < (n : ℚ) := by exact_mod_cast hn
  have hiq : (0 : ℚ) < (i : ℚ) := by exact_mod_cast (by omega : (0 : ℤ) < i)
  have hq0i_pos : (0 : ℚ) < (i : ℚ) / (n : ℚ) := div_pos hiq hnq
  have hdiv_mono : (i : ℚ) / (n : ℚ) ≤ (j : ℚ) / (n : ℚ) := by
    have hijq : (i : ℚ) ≤ (j : ℚ) := by exact_mod_cast hij
    gcongr
  have h1m : dbl ((i : ℚ) / (n : ℚ)) ≤ dbl ((j : ℚ) / (n : ℚ)) :=
    dbl_mono hq0i_pos hdiv_mono
  have hx1i_pos : 0 < dbl ((i : ℚ) / (n : ℚ)) := (dbl_facts _ hq0i_pos).1
  have h2m : dbl (dbl ((i : ℚ) / (n : ℚ)) * 360) ≤ dbl (dbl ((j : ℚ) / (n : ℚ)) * 360) := by
    apply dbl_mono (by positivity)
    exact mul_le_mul_of_nonneg_right h1m (by norm_num)
  exact Int.floor_le_floor (by linarith)

/-- C2 counterexample: at index 7 of 80 heads the program computes hue
31 (the double value of (7/80)*360 is 31.499999999999996, below the
exact 31.5), while round ((7/80)*360) on exact rationals is 32: the
returned string does not carry the exact-rational rounded hue. -/
theorem attentionHeadColor_deviation :
    attentionHeadColor 7 80 = "hsla(" ++ "31" ++ ", 70%, 50%,  " ++ "100%" ++ ")" ∧
    ⌊((7 : ℤ) : ℚ) / ((80 : ℤ) : ℚ) * 360 + 1 / 2⌋ = 32 ∧
    attentionHeadColor 7 80 ≠
      "hsla(" ++ toString ⌊((7 : ℤ) : ℚ) / ((80 : ℤ) : ℚ) * 360 + 1 / 2⌋ ++
        ", 70%, 50%,  " ++ "100%" ++ ")" := by
  have e1 : ratExpQ ((7 : ℚ) / 80) = -4 :=
    ratExpQ_unique _ _ (by norm_num) (by norm_num) (by norm_num)
  have m1 : roundTiesEven ((7 : ℚ) / 80 * 2 ^ (52 - (-4 : ℤ))) = 6305039478318694 := by
    apply rte_eq_of_lt_half <;> norm_num
  have d1 : dbl ((7 : ℚ) / 80) = 3152519739159347 / 36028797018963968 := by
    rw [dbl_eval ((7 : ℚ) / 80) (-4) 6305039478318694 e1 m1]
    norm_num
  have e2 : ratExpQ ((3152519739159347 : ℚ) / 36028797018963968 * 360) = 4 :=
    ratExpQ_unique _ _ (by norm_num) (by norm_num) (by norm_num)
  have m2 : roundTiesEven ((3152519739159347 : ℚ) / 36028797018963968 * 360 *
      2 ^ (52 - (4 : ℤ))) = 8866461766385663 := by
    apply rte_eq_of_lt_half <;> norm_num
  have d2 : dbl ((3152519739159347 : ℚ) / 36028797018963968 * 360) =
      8866461766385663 / 281474976710656 := by
    rw [dbl_eval _ 4 8866461766385663 e2 m2]
    norm_num
  have hv : hueInt 7 80 = 31 := by
    unfold hueInt
    rw [show ((7 : ℤ) : ℚ) / ((80 : ℤ) : ℚ) = (7 : ℚ) / 80 by norm_num]
    rw [d1, d2]
    rw [show (8866461766385663 : ℚ) / 281474976710656 + 1 / 2 =
      ((9007199254740991 : ℤ) : ℚ) / ((281474976710656 : ℤ) : ℚ) by norm_num]
    rw [floorIntDiv _ _ (by norm_num)]
    decide
  have hhue : attentionHue 7 80 = JSNum.num ((31 : ℤ) : ℚ) := by
    have hch := (attentionHue_chain 7 80 (by norm_num) (by norm_num) (by norm_num)).1
    rw [hv] at hch
    exact hch
  have hfl : ⌊((7 : ℤ) : ℚ) / ((80 : ℤ) : ℚ) * 360 + 1 / 2⌋ = 32 := by
    rw [hue_floor_eq 7 80 (by norm_num)]
    decide
  have hstr : attentionHeadColor 7 80 =
      "hsla(" ++ "31" ++ ", 70%, 50%,  " ++ "100%" ++ ")" := by
    rw [attentionHeadColor, hhue, jsNumToString_intCast]
    rfl
  refine ⟨hstr, hfl, ?_⟩
  rw [hfl, hstr]
  decide

/-- C2 amended: with a representable positive head count and an index
in range, attentionHeadColor yields hsla(h, 70%, 50%,  alpha) where h
is Math.round of the double-evaluated (idx / headCount) * 360 - an
integer within 1/2 + 2^-40 of the exact value, possibly differing by
one from the exact-rational rounding at double-rounding boundaries; the
function is deterministic, and index 0 always gets hue 0. -/
theorem attentionHeadColor_formula (idx numberOfHeads : ℤ) (alpha : String)
    (hn : 0 < numberOfHeads) (h0 : 0 ≤ idx) (hlt : idx < numberOfHeads)
    (hrep : numberOfHeads ≤ 2 ^ 53) :
    (∃ h : ℤ, attentionHeadColor idx numberOfHeads alpha =
        "hsla(" ++ toString h ++ ", 70%, 50%,  " ++ alpha ++ ")" ∧
      |(h : ℚ) - (idx : ℚ) / (numberOfHeads : ℚ) * 360| ≤ 1 / 2 + (2 : ℚ) ^ (-(40 : ℤ))) ∧
    attentionHeadColor idx numberOfHeads alpha =
      attentionHeadColor idx numberOfHeads alpha ∧
    attentionHeadColor 0 numberOfHeads alpha =
      "hsla(" ++ "0" ++ ", 70%, 50%,  " ++ alpha ++ ")" := by
  have hzero : attentionHeadColor 0 numberOfHeads alpha =
      "hsla(" ++ "0" ++ ", 70%, 50%,  " ++ alpha ++ ")" := by
    rw [attentionHeadColor, attentionHue_zero numberOfHeads hn]
    rfl
  refine ⟨?_, rfl, hzero⟩
  rcases eq_or_lt_of_le h0 with h00 | hpos
  · refine ⟨0, ?_, ?_⟩
    · rw [← h00, hzero]
      rfl
    · rw [← h00]
      rw [show ((0 : ℤ) : ℚ) / (numberOfHeads : ℚ) * 360 = 0 by
        rw [Int.cast_zero, zero_div, zero_mul]]
      rw [show ((0 : ℤ) : ℚ) - 0 = 0 by norm_num, abs_zero]
      positivity
  · obtain ⟨hch, herr⟩ := attentionHue_chain idx numberOfHeads (by omega) hlt hrep
    refine ⟨hueInt idx numberOfHeads, ?_, herr⟩
    rw [attentionHeadColor, hch, jsNumToString_intCast]

theorem attentionHeadColor_formula_witness :
    ∃ h : ℤ, attentionHeadColor 1 2 "100%" =
        "hsla(" ++ toString h ++ ", 70%, 50%,  " ++ "100%" ++ ")" ∧
      |(h : ℚ) - ((1 : ℤ) : ℚ) / ((2 : ℤ) : ℚ) * 360| ≤ 1 / 2 + (2 : ℚ) ^ (-(40 : ℤ)) :=
  (attentionHeadColor_formula 1 2 "100%" (by norm_num) (by norm_num) (by norm_num)
    (by norm_num)).1

/-- C8 counterexample: with 720 heads the last head (index 719) gets
hue exactly 360, not a hue strictly below 360: the double computation
lands exactly on 359.5 and Math.round takes halves up. -/
theorem attentionHue_360_at_720 : attentionHue 719 720 = JSNum.num 360 := by
  have e1 : ratExpQ ((719 : ℚ) / 720) = -1 :=
    ratExpQ_unique _ _ (by norm_num) (by norm_num) (by norm_num)
  have m1 : roundTiesEven ((719 : ℚ) / 720 * 2 ^ (52 - (-1 : ℤ))) = 8994689255776074 := by
    have hstep := rte_eq_of_gt_half ((719 : ℚ) / 720 * 2 ^ (52 - (-1 : ℤ)))
      8994689255776073 (by norm_num) (by norm_num)
    omega
  have d1 : dbl ((719 : ℚ) / 720) = 4497344627888037 / 4503599627370496 := by
    rw [dbl_eval ((719 : ℚ) / 720) (-1) 8994689255776074 e1 m1]
    norm_num
  have e2 : ratExpQ ((4497344627888037 : ℚ) / 4503599627370496 * 360) = 8 :=
    ratExpQ_unique _ _ (by norm_num) (by norm_num) (by norm_num)
  have m2 : roundTiesEven ((4497344627888037 : ℚ) / 4503599627370496 * 360 *
      2 ^ (52 - (8 : ℤ))) = 6324390882967552 := by
    apply rte_eq_of_lt_half <;> norm_num
  have d2 : dbl ((4497344627888037 : ℚ) / 4503599627370496 * 360) = 719 / 2 := by
    rw [dbl_eval _ 8 6324390882967552 e2 m2]
    norm_num
  have hv : hueInt 719 720 = 360 := by
    unfold hueInt
    rw [show ((719 : ℤ) : ℚ) / ((720 : ℤ) : ℚ) = (719 : ℚ) / 720 by norm_num]
    rw [d1, d2]
    rw [show (719 : ℚ) / 2 + 1 / 2 = ((360 : ℤ) : ℚ) by norm_num]
    exact Int.floor_intCast 360
  have hch := (attentionHue_chain 719 720 (by norm_num) (by norm_num) (by norm_num)).1
  rw [hv] at hch
  rw [hch]
  exact congrArg JSNum.num (by norm_num)

/-- C8 amended: for every head count up to 719 the hues (computed in
binary64) are monotone in index order, each within 1/2 + 2^-40 of the
exact even spacing (index / headCount) * 360, head 0 has hue 0, and the
last head has a hue strictly below 360; at 720 heads the last hue
reaches exactly 360 (see the counterexample). -/
theorem attentionHue_distribution (n : ℤ) (hn : 0 < n) (hcap : n ≤ 719) :
    attentionHue 0 n = JSNum.num 0 ∧
    (∀ i j : ℤ, 1 ≤ i → i ≤ j → j < n → hueInt i n ≤ hueInt j n) ∧
    (∀ i : ℤ, 1 ≤ i → i < n →
      attentionHue i n = JSNum.num ((hueInt i n : ℤ) : ℚ) ∧
      |((hueInt i n : ℤ) : ℚ) - (i : ℚ) / (n : ℚ) * 360| ≤ 1 / 2 + (2 : ℚ) ^ (-(40 : ℤ))) ∧
    (∃ hl : ℤ, attentionHue (n - 1) n = JSNum.num ((hl : ℤ) : ℚ) ∧ hl < 360) := by
  have hrep : n ≤ 2 ^ 53 := by
    have hlit : (2 : ℤ) ^ 53 = 9007199254740992 := by norm_num
    omega
  refine ⟨attentionHue_zero n hn, fun i j h1 hij hj => hueInt_mono n i j h1 hij hj,
    fun i h1 hi => attentionHue_chain i n h1 hi hrep, ?_⟩
  by_cases hone : n = 1
  · refine ⟨0, ?_, by norm_num⟩
    rw [hone]
    show attentionHue 0 1 = JSNum.num (((0 : ℤ)) : ℚ)
    rw [attentionHue_zero 1 (by norm_num)]
    exact congrArg JSNum.num (by norm_num)
  · have h2 : 2 ≤ n := by omega
    obtain ⟨hch, herr⟩ := attentionHue_chain (n - 1) n (by omega) (by omega) hrep
    refine ⟨hueInt (n - 1) n, hch, ?_⟩
    have hnq : (0 : ℚ) < (n : ℚ) := by exact_mod_cast hn
    have hcastarg : ((n - 1 : ℤ) : ℚ) = (n : ℚ) - 1 := by push_cast; ring
    have hid : ((n : ℚ) - 1) / (n : ℚ) * 360 = 360 - 360 / (n : ℚ) := by
      field_simp
      ring
    rw [hcastarg, hid] at herr
    have habs := abs_le.mp herr
    have hinv : (360 : ℚ) / 719 ≤ 360 / (n : ℚ) := by
      have hstep : (1 : ℚ) / 719 ≤ 1 / (n : ℚ) :=
        one_div_le_one_div_of_le hnq (by exact_mod_cast hcap)
      calc (360 : ℚ) / 719 = 360 * (1 / 719) := by ring
        _ ≤ 360 * (1 / (n : ℚ)) := mul_le_mul_of_nonneg_left hstep (by norm_num)
        _ = 360 / (n : ℚ) := by ring
    have hlit : (2 : ℚ) ^ (-(40 : ℤ)) = 1 / 1099511627776 := by norm_num
    rw [hlit] at habs
    have hgap : (1 : ℚ) / 2 + 1 / 1099511627776 < 360 / 719 := by norm_num
    have hfin : ((hueInt (n - 1) n : ℤ) : ℚ) < 360 := by
      linarith [habs.2]
    exact_mod_cast hfin

theorem attentionHue_distribution_witness :
    ∃ hl : ℤ, attentionHue ((4 : ℤ) - 1) 4 = JSNum.num ((hl : ℤ) : ℚ) ∧ hl < 360 :=
  (attentionHue_distribution 4 (by norm_num) (by norm_num)).2.2.2

/-- Modelled from the spec: the hook useHoverLock is imported from
components/useHoverLock, whose source is not part of the excerpt; this
state follows spec section 4.1 (FocusState: optional index plus locked
flag, with a caller-supplied default focus fixed at initialization).
The hovered index is tracked separately so that unlocking can fall back
to the current hover. -/
structure HoverLockState where
  defaultFocus : Option Nat
  hovered : Option Nat
  locked : Option Nat
  deriving DecidableEq

/-- Modelled from the spec: initialize sets focus to the default (or
unset) and lock to false. -/
def initHoverLock (defaultFocus : Option Nat) : HoverLockState :=
  { defaultFocus := defaultFocus, hovered := none, locked := none }

/-- Modelled from the spec: the lock flag of a state. -/
def lockFlag (s : HoverLockState) : Bool :=
  s.locked.isSome

/-- Modelled from the spec: the observable focused index; the locked
index if locked, else the hovered index, else the configured default. -/
def focusedIdx (s : HoverLockState) : Option Nat :=
  (s.locked.or s.hovered).or s.defaultFocus

/-- Modelled from the spec: onMouseEnter tracks the hovered index; when
not locked this makes the focus follow the pointer, when locked it has
no observable effect on focus. -/
def onMouseEnter (i : Nat) (s : HoverLockState) : HoverLockState :=
  { s with hovered := some i }

/-- Modelled from the spec: onMouseLeave clears the hovered index; when
not locked this clears the focus back to the default, when locked it
has no effect on focus. -/
def onMouseLeave (s : HoverLockState) : HoverLockState :=
  { s with hovered := none }

/-- Modelled from the spec: onClick toggles the lock; clicking the
currently locked index unlocks (focus reverts to the current hover if
any, else the default), clicking any other index locks onto it. -/
def onClick (i : Nat) (s : HoverLockState) : HoverLockState :=
  if s.locked = some i then { s with locked := none }
  else { s with locked := some i }

/-- Hover events of one region: pointer enter with an index, or leave. -/
inductive HoverEvent where
  | enter : Nat → HoverEvent
  | leave : HoverEvent
  deriving DecidableEq

/-- Apply one hover event to a hover-lock state. -/
def applyHoverEvent : HoverEvent → HoverLockState → HoverLockState
  | HoverEvent.enter i, s => onMouseEnter i s
  | HoverEvent.leave, s => onMouseLeave s

/-- Apply a sequence of hover events, left to right. -/
def applyHoverEvents (es : List HoverEvent) (s : HoverLockState) : HoverLockState :=
  es.foldl (fun t e => applyHoverEvent e t) s

/-- The token view direction enum from AttentionTokens (only its two
values are used by AttentionHeads). -/
inductive TokensView where
  | DESTINATION_TO_SOURCE : TokensView
  | SOURCE_TO_DESTINATION : TokensView
  deriving DecidableEq

/-- The three independent state pieces of the AttentionHeads component:
the head-region hover-lock state (useHoverLock 0), the tokensView
useState, and the token-region hover-lock state (useHoverLock with no
argument). -/
structure AttentionHeadsState where
  headLock : HoverLockState
  tokensView : TokensView
  tokenLock : HoverLockState
  deriving DecidableEq

/-- Initial state of AttentionHeads on first render: useHoverLock 0 for
heads, TokensView.DESTINATION_TO_SOURCE for the select, useHoverLock
with no default for tokens. -/
def initAttentionHeads : AttentionHeadsState :=
  { headLock := initHoverLock (some 0)
    tokensView := TokensView.DESTINATION_TO_SOURCE
    tokenLock := initHoverLock none }

/-- The onChange handler of the select element: setTokensView updates
only the tokensView useState slice. -/
def setTokensView (v : TokensView) (s : AttentionHeadsState) : AttentionHeadsState :=
  { s with tokensView := v }

/-- An attention tensor, shape heads x dest_pos x src_pos, with exact
rational entries. -/
abbrev AttentionTensor : Type := List (List (List ℚ))

/-- Embedding of the coloredAttention useMemo body from AttentionHeads:
returns null when showTokens is false, the tensor is absent, it has
zero heads, or head 0 has zero destination positions or zero source
positions in its row 0 (attention[0]?.length and
attention[0]?.[0]?.length with the or-zero fallback); otherwise it
calls the external collaborator colorAttentionTensors, which is passed
in as the parameter colorFn. -/
def coloredAttentionMemo {C : Type} (colorFn : AttentionTensor → C) :
    Bool → Option AttentionTensor → Option C
  | false, _ => none
  | true, none => none
  | true, some att =>
    if att.length = 0 then none
    else if (att.headD []).length = 0 ∨ ((att.headD []).headD []).length = 0 ∨
        att.length = 0 then none
    else some (colorFn att)

/-- Embedding of the headNames computation:
attentionHeadNames or else one generated name "Head idx" per head.  A
supplied list is used as-is (JavaScript or-fallback on the whole
array), absent means undefined and triggers the generated list. -/
def headNames (attentionHeadNames : Option (List String))
    (attention : AttentionTensor) : List String :=
  match attentionHeadNames with
  | some names => names
  | none => (List.range attention.length).map (fun idx => "Head " ++ toString idx)

/-- The label shown for head idx (in the selector cell and in the
zoomed heading): indexing headNames at idx, none when the index is past
the end of the list (JavaScript undefined). -/
def headLabel (attentionHeadNames : Option (List String))
    (attention : AttentionTensor) (idx : Nat) : Option String :=
  (headNames attentionHeadNames attention).get? idx

/-- Props of the AttentionHeads component; optional props are Option,
with the defaults maskUpperTri = true and showTokens = true applied by
the destructuring in the component (see the effective accessors
below). -/
structure AttentionHeadsProps where
  attention : AttentionTensor
  attentionHeadNames : Option (List String)
  maxValue : Option ℚ
  minValue : Option ℚ
  negativeColor : Option String
  positiveColor : Option String
  maskUpperTri : Option Bool
  showTokens : Option Bool
  tokens : List String
  deriving DecidableEq

/-- Effective maskUpperTri after the default true. -/
def AttentionHeadsProps.maskUpperTriEff (p : AttentionHeadsProps) : Bool :=
  p.maskUpperTri.getD true

/-- Effective showTokens after the default true. -/
def AttentionHeadsProps.showTokensEff (p : AttentionHeadsProps) : Bool :=
  p.showTokens.getD true

/-- Props handed to one AttentionPattern rendering (the external
heatmap collaborator); zoomed and showAxisLabels stay Option because
each call site passes only some of them. -/
structure AttentionPatternProps where
  attention : List (List ℚ)
  tokens : List String
  showAxisLabels : Option Bool
  maxValue : Option ℚ
  minValue : Option ℚ
  negativeColor : Option String
  positiveColor : Option String
  zoomed : Option Bool
  maskUpperTri : Bool
  deriving DecidableEq

/-- Props that AttentionHeadsSelector passes to the AttentionPattern of
the grid cell for head idx (attention[idx], shared tokens, axis labels
off, shared bounds, colors and mask flag). -/
def selectorCellProps (p : AttentionHeadsProps) (idx : Nat) : AttentionPatternProps :=
  { attention := p.attention.getD idx []
    tokens := p.tokens
    showAxisLabels := some false
    maxValue := p.maxValue
    minValue := p.minValue
    negativeColor := p.negativeColor
    positiveColor := p.positiveColor
    zoomed := none
    maskUpperTri := p.maskUpperTriEff }

/-- Border color of the selector cell for head idx:
attentionHeadColor (idx, attention.length). -/
def selectorCellBorderColor (p : AttentionHeadsProps) (idx : Nat) : String :=
  attentionHeadColor (idx : ℤ) (p.attention.length : ℤ)

/-- Background color of the selector cell label for head idx:
attentionHeadColor (idx, attention.length). -/
def selectorCellLabelBackground (p : AttentionHeadsProps) (idx : Nat) : String :=
  attentionHeadColor (idx : ℤ) (p.attention.length : ℤ)

/-- Focus glow of the selector cell for head idx, present exactly when
the cell is focused, with the same hue at alpha 60 percent. -/
def selectorCellGlow (p : AttentionHeadsProps) (focused : Option Nat)
    (idx : Nat) : Option String :=
  if focused = some idx then
    some (attentionHeadColor (idx : ℤ) (p.attention.length : ℤ) "60%")
  else none

/-- Props that AttentionHeads passes to the zoomed AttentionPattern:
attention[focused], the shared bounds, colors and mask flag, and
zoomed set to true. -/
def zoomedPatternProps (p : AttentionHeadsProps) (focused : Nat) : AttentionPatternProps :=
  { attention := p.attention.getD focused []
    tokens := p.tokens
    showAxisLabels := none
    maxValue := p.maxValue
    minValue := p.minValue
    negativeColor := p.negativeColor
    positiveColor := p.positiveColor
    zoomed := some true
    maskUpperTri := p.maskUpperTriEff }

/-- Background color of the zoomed view heading:
attentionHeadColor (focused, attention.length). -/
def zoomedLabelBackground (p : AttentionHeadsProps) (focused : Nat) : String :=
  attentionHeadColor (focused : ℤ) (p.attention.length : ℤ)

/-- C10: attentionHeadColor is total with no bounds check: every integer
input yields a well-formed hsla string, and with numberOfHeads = 0 the
hue is NaN (idx = 0) or Infinity (idx positive), embedded verbatim. -/
theorem attentionHeadColor_total (idx : ℤ) (alpha : String) :
    (∀ numberOfHeads : ℤ, ∃ h : String,
      attentionHeadColor idx numberOfHeads alpha =
        "hsla(" ++ h ++ ", 70%, 50%,  " ++ alpha ++ ")") ∧
    (idx = 0 → attentionHeadColor idx 0 alpha =
      "hsla(" ++ "NaN" ++ ", 70%, 50%,  " ++ alpha ++ ")") ∧
    (0 < idx → attentionHeadColor idx 0 alpha =
      "hsla(" ++ "Infinity" ++ ", 70%, 50%,  " ++ alpha ++ ")") := by
  refine ⟨fun n => ⟨jsNumToString (attentionHue idx n), rfl⟩, ?_, ?_⟩
  · intro h
    subst h
    rfl
  · intro h
    rw [attentionHeadColor, attentionHue, jsDivInt, if_pos rfl,
      if_neg (by omega : ¬ idx = 0), if_pos h]
    rfl

theorem attentionHeadColor_total_witness :
    attentionHeadColor 1 0 "100%" =
      "hsla(" ++ "Infinity" ++ ", 70%, 50%,  " ++ "100%" ++ ")" :=
  (attentionHeadColor_total 1 "100%").2.2 (by decide)

/-- Any single hover event leaves the locked field unchanged. -/
theorem lockFlag_applyHoverEvent (e : HoverEvent) (s : HoverLockState) :
    (applyHoverEvent e s).locked = s.locked := by
  cases e <;> rfl

/-- C3: clicking an index that is not currently locked (unlocked state
or locked on another index) locks focus on it; clicking the currently
locked index unlocks, focus reverting to the current hover if any, else
the default. -/
theorem onClick_toggles_lock (s : HoverLockState) (i : Nat) :
    (s.locked ≠ some i →
      focusedIdx (onClick i s) = some i ∧ lockFlag (onClick i s) = true) ∧
    (s.locked = some i →
      lockFlag (onClick i s) = false ∧
      focusedIdx (onClick i s) = s.hovered.or s.defaultFocus) := by
  constructor
  · intro h
    rw [onClick, if_neg h]
    constructor <;> rfl
  · intro h
    rw [onClick, if_pos h]
    constructor <;> rfl

theorem onClick_toggles_lock_witness :
    focusedIdx (onClick 3 (initHoverLock none)) = some 3 ∧
    lockFlag (onClick 3 (initHoverLock none)) = true :=
  (onClick_toggles_lock (initHoverLock none) 3).1 (by decide)

/-- C4: while locked, mouse enter and leave do not change the focus;
while unlocked, mouse enter focuses the entered index and mouse leave
falls back to the default; no sequence of hover events ever changes the
lock flag. -/
theorem hover_preserves_lock (s : HoverLockState) (i : Nat) :
    (lockFlag s = true →
      focusedIdx (onMouseEnter i s) = focusedIdx s ∧
      focusedIdx (onMouseLeave s) = focusedIdx s) ∧
    (lockFlag s = false →
      focusedIdx (onMouseEnter i s) = some i ∧
      focusedIdx (onMouseLeave s) = s.defaultFocus) ∧
    (∀ es : List HoverEvent, lockFlag (applyHoverEvents es s) = lockFlag s) := by
  refine ⟨?_, ?_, ?_⟩
  · intro h
    rw [lockFlag, Option.isSome_iff_exists] at h
    obtain ⟨k, hk⟩ := h
    constructor <;>
      simp [focusedIdx, onMouseEnter, onMouseLeave, hk, Option.or]
  · intro h
    have hl : s.locked = none := by
      cases hl2 : s.locked with
      | none => rfl
      | some k =>
        rw [lockFlag, hl2] at h
        exact absurd h (by simp)
    constructor <;>
      simp [focusedIdx, onMouseEnter, onMouseLeave, hl, Option.or]
  · intro es
    induction es generalizing s with
    | nil => rfl
    | cons e es ih =>
      have h1 : applyHoverEvents (e :: es) s =
          applyHoverEvents es (applyHoverEvent e s) := rfl
      rw [h1, ih (applyHoverEvent e s), lockFlag, lockFlag,
        lockFlag_applyHoverEvent]

theorem hover_preserves_lock_witness :
    focusedIdx (onMouseEnter 5 (initHoverLock (some 0))) = some 5 ∧
    focusedIdx (onMouseLeave (initHoverLock (some 0))) =
      (initHoverLock (some 0)).defaultFocus :=
  (hover_preserves_lock (initHoverLock (some 0)) 5).2.1 (by decide)

/-- C5: changing the token view mode touches only the tokensView state
slice; both hover-lock instances, and in particular their focused and
locked indices, are unchanged. -/
theorem setTokensView_frame (s : AttentionHeadsState) (v : TokensView) :
    (setTokensView v s).headLock = s.headLock ∧
    (setTokensView v s).tokenLock = s.tokenLock ∧
    focusedIdx (setTokensView v s).headLock = focusedIdx s.headLock ∧
    lockFlag (setTokensView v s).headLock = lockFlag s.headLock ∧
    focusedIdx (setTokensView v s).tokenLock = focusedIdx s.tokenLock ∧
    lockFlag (setTokensView v s).tokenLock = lockFlag s.tokenLock ∧
    (setTokensView v s).tokensView = v :=
  ⟨rfl, rfl, rfl, rfl, rfl, rfl, rfl⟩

/-- C9: on first render the head hover-lock starts with focus index 0
(useHoverLock 0), the token view starts at DESTINATION_TO_SOURCE, and
the token hover-lock starts with no default focus (useHoverLock with no
argument). -/
theorem initAttentionHeads_defaults :
    focusedIdx initAttentionHeads.headLock = some 0 ∧
    lockFlag initAttentionHeads.headLock = false ∧
    initAttentionHeads.tokensView = TokensView.DESTINATION_TO_SOURCE ∧
    initAttentionHeads.tokenLock.defaultFocus = none ∧
    focusedIdx initAttentionHeads.tokenLock = none ∧
    lockFlag initAttentionHeads.tokenLock = false := by
  refine ⟨rfl, rfl, rfl, rfl, rfl, rfl⟩

/-- C1: the memoized token-color derivation returns null exactly when
showTokens is false, the tensor is absent, or it is degenerate (zero
heads, zero destination positions or zero source positions, read off
head 0 as the code does); otherwise it returns the collaborator result,
and the collaborator is only ever applied to a nondegenerate tensor. -/
theorem coloredAttentionMemo_guard {C : Type} (colorFn : AttentionTensor → C)
    (showTokens : Bool) (attention : Option AttentionTensor) :
    (coloredAttentionMemo colorFn showTokens attention = none ↔
      showTokens = false ∨ attention = none ∨
      ∃ att, attention = some att ∧
        (att.length = 0 ∨ (att.headD []).length = 0 ∨
          ((att.headD []).headD []).length = 0)) ∧
    (∀ c : C, coloredAttentionMemo colorFn showTokens attention = some c →
      ∃ att, attention = some att ∧ c = colorFn att ∧
        0 < att.length ∧ 0 < (att.headD []).length ∧
        0 < ((att.headD []).headD []).length) := by
  cases showTokens with
  | false =>
    have e : coloredAttentionMemo colorFn false attention = none := by
      cases attention <;> rfl
    refine ⟨iff_of_true e (Or.inl rfl), ?_⟩
    intro c hc
    rw [e] at hc
    exact Option.noConfusion hc
  | true =>
    cases attention with
    | none =>
      refine ⟨iff_of_true rfl (Or.inr (Or.inl rfl)), ?_⟩
      intro c hc
      exact Option.noConfusion hc
    | some att =>
      by_cases h0 : att.length = 0
      · have e : coloredAttentionMemo colorFn true (some att) = none := by
          simp only [coloredAttentionMemo]
          rw [if_pos h0]
        refine ⟨iff_of_true e (Or.inr (Or.inr ⟨att, rfl, Or.inl h0⟩)), ?_⟩
        intro c hc
        rw [e] at hc
        exact Option.noConfusion hc
      · by_cases hd : (att.headD []).length = 0
        · have e : coloredAttentionMemo colorFn true (some att) = none := by
            simp only [coloredAttentionMemo]
            rw [if_neg h0, if_pos (Or.inl hd)]
          refine ⟨iff_of_true e (Or.inr (Or.inr ⟨att, rfl, Or.inr (Or.inl hd)⟩)), ?_⟩
          intro c hc
          rw [e] at hc
          exact Option.noConfusion hc
        · by_cases hs : ((att.headD []).headD []).length = 0
          · have e : coloredAttentionMemo colorFn true (some att) = none := by
              simp only [coloredAttentionMemo]
              rw [if_neg h0, if_pos (Or.inr (Or.inl hs))]
            refine ⟨iff_of_true e (Or.inr (Or.inr ⟨att, rfl, Or.inr (Or.inr hs)⟩)), ?_⟩
            intro c hc
            rw [e] at hc
            exact Option.noConfusion hc
          · have e : coloredAttentionMemo colorFn true (some att) =
                some (colorFn att) := by
              simp only [coloredAttentionMemo]
              rw [if_neg h0, if_neg ?_]
              intro hor
              rcases hor with h | h | h
              exacts [hd h, hs h, h0 h]
            refine ⟨?_, ?_⟩
            · rw [e]
              constructor
              · intro h
                exact Option.noConfusion h
              · intro hrhs
                rcases hrhs with h | h | ⟨att2, ha, hdeg⟩
                · exact absurd h (by decide)
                · exact Option.noConfusion h
                · cases Option.some.inj ha
                  rcases hdeg with h | h | h
                  exacts [absurd h h0, absurd h hd, absurd h hs]
            · intro c hc
              rw [e] at hc
              exact ⟨att, rfl, (Option.some.inj hc).symm, by omega, by omega,
                by omega⟩

theorem coloredAttentionMemo_guard_witness :
    ∃ att, (some [[[(1 : ℚ)]]] : Option AttentionTensor) = some att ∧
      (1 : Nat) = List.length att ∧ 0 < att.length ∧
      0 < (att.headD []).length ∧ 0 < ((att.headD []).headD []).length :=
  (coloredAttentionMemo_guard List.length true (some [[[(1 : ℚ)]]])).2 1 (by rfl)

/-- Concrete props with two heads, used as witness input. -/
def exampleProps : AttentionHeadsProps :=
  { attention := [[[(1 : ℚ)]], [[(2 : ℚ)]]]
    attentionHeadNames := none
    maxValue := none
    minValue := none
    negativeColor := none
    positiveColor := none
    maskUpperTri := none
    showTokens := none
    tokens := ["a"] }

/-- C6: for a focused head f in range, the zoomed view receives exactly
attention[f] with the same bounds, colors and mask flag as the grid cell
(differing only in zoomed = true and no showAxisLabels), its label
background is attentionHeadColor (f, attention.length) - the same color
as the grid cell border and cell label background - and on first render
the focused head is 0. -/
theorem zoomedView_matches (p : AttentionHeadsProps) (f : Nat)
    (hf : f < p.attention.length) :
    zoomedPatternProps p f =
      { selectorCellProps p f with zoomed := some true, showAxisLabels := none } ∧
    (zoomedPatternProps p f).attention = p.attention.get ⟨f, hf⟩ ∧
    (zoomedPatternProps p f).zoomed = some true ∧
    zoomedLabelBackground p f = selectorCellBorderColor p f ∧
    zoomedLabelBackground p f = selectorCellLabelBackground p f ∧
    zoomedLabelBackground p f = attentionHeadColor (f : ℤ) (p.attention.length : ℤ) ∧
    focusedIdx initAttentionHeads.headLock = some 0 := by
  refine ⟨rfl, ?_, rfl, rfl, rfl, rfl, rfl⟩
  show p.attention.getD f [] = p.attention.get ⟨f, hf⟩
  rw [List.getD_eq_getElem?_getD, List.getElem?_eq_getElem hf, Option.getD_some,
    List.get_eq_getElem]

theorem zoomedView_matches_witness :
    zoomedLabelBackground exampleProps 1 = selectorCellBorderColor exampleProps 1 ∧
    zoomedLabelBackground exampleProps 1 = selectorCellLabelBackground exampleProps 1 :=
  ⟨(zoomedView_matches exampleProps 1 (by decide)).2.2.2.1,
   (zoomedView_matches exampleProps 1 (by decide)).2.2.2.2.1⟩

/-- C7 counterexample: with two heads and a supplied name list of
length one, the label of head 1 is undefined (none), not the generated
default "Head 1": the or-fallback in the source replaces the whole
array or nothing. -/
theorem headLabel_counterexample :
    headLabel (some ["A"]) [[[(1 : ℚ)]], [[(2 : ℚ)]]] 1 = none ∧
    ¬ headLabel (some ["A"]) [[[(1 : ℚ)]], [[(2 : ℚ)]]] 1 =
        some ("Head " ++ toString (1 : Nat)) := by
  refine ⟨rfl, ?_⟩
  intro h
  exact Option.noConfusion h

/-- C7 amended: a supplied attentionHeadNames array is used as-is (a
whole-array fallback, so indices at or beyond its length yield no
label), and only an absent attentionHeadNames gives every head index i
the generated default label "Head i". -/
theorem headLabel_fallback (attention : AttentionTensor) (names : List String) (i : Nat) :
    headNames (some names) attention = names ∧
    (i < attention.length →
      headLabel none attention i = some ("Head " ++ toString i)) ∧
    (names.length ≤ i → headLabel (some names) attention i = none) := by
  refine ⟨rfl, ?_, ?_⟩
  · intro h
    rw [headLabel, headNames]
    rw [List.get?_map, List.get?_range h]
    rfl
  · intro h
    rw [headLabel, headNames, List.get?_eq_none]
    exact h

theorem headLabel_fallback_witness :
    headLabel none [[[(1 : ℚ)]], [[(2 : ℚ)]]] 1 =
      some ("Head " ++ toString (1 : Nat)) :=
  (headLabel_fallback [[[(1 : ℚ)]], [[(2 : ℚ)]]] ["A"] 1).2.1 (by decide)
